import Mathlib

/-!
Verification of the event ingestion / dedup / classify / aggregate engine of
`stock_alert_bot.py` against its natural-language specification.

The Python source is shallowly embedded below.  Timestamps are modelled as
epoch seconds (`Int`); Python's `datetime` subtraction and `total_seconds`
therefore become integer subtraction, with the minute conversion kept as an
exact rational division as in the source.  `hashlib.sha256` is embedded as a
full executable SHA-256 over `Nat` words reduced mod 2^32.  Python strings
are Lean `String`s; Python's lexicographic string comparison is embedded as a
codepoint-wise lexicographic compare on `List Char`.
-/

namespace StockAlertBot

/-! ## Character helpers (Python `str.lower`, `\s`, and the regex class)

`str.lower` is modelled on the ASCII range (the titles handled by the bot are
Korean, where `lower` is the identity, plus ASCII).  `\s` is modelled as the
ASCII whitespace class.  Python `\w` (Unicode word characters) is modelled as
ASCII alphanumerics, underscore, and the Hangul syllable block. -/

def lowerChar (c : Char) : Char := Char.toLower c

def isWs (c : Char) : Bool := c.isWhitespace

def isWordChar (c : Char) : Bool :=
  c.isAlphanum || c = '_' || (0xAC00 ≤ c.toNat && c.toNat ≤ 0xD7A3)

/-- The allow-list of `re.sub(r"[^\w가-힣%+–—\-·\s]", "", s)`:
word characters, Hangul, percent, plus, en/em dash, hyphen, middle dot,
whitespace. -/
def isAllowed (c : Char) : Bool :=
  isWordChar c || c = '%' || c = '+' || c = '–' || c = '—' || c = '-' ||
    c = '·' || isWs c

/-- `re.sub(r"\s+", " ", s)`, fuelled for structural recursion: every maximal
run of whitespace becomes one space.  The fuel only needs to dominate the
number of characters consumed; `collapseWS` instantiates it with the list
length. -/
def collapseRuns : Nat → List Char → List Char
  | 0, _ => []
  | _ + 1, [] => []
  | fuel + 1, c :: r =>
    if isWs c then ' ' :: collapseRuns fuel (r.dropWhile isWs)
    else c :: collapseRuns fuel r

def collapseWS (l : List Char) : List Char := collapseRuns l.length l

/-- Python `str.strip()`: drop leading and trailing whitespace. -/
def stripChars (l : List Char) : List Char :=
  ((l.dropWhile isWs).reverse.dropWhile isWs).reverse

/-- `normalize_title` from the source: lowercase, collapse whitespace runs,
strip characters outside the allow-list, strip ends. -/
def normalize_title (s : String) : String :=
  String.mk (stripChars ((collapseWS (s.data.map lowerChar)).filter isAllowed))

/-! ## UTF-8 encoding (`str.encode("utf-8")`) -/

def utf8EncodeChar (n : Nat) : List Nat :=
  if n < 0x80 then [n]
  else if n < 0x800 then
    [0xC0 ||| (n >>> 6), 0x80 ||| (n &&& 0x3F)]
  else if n < 0x10000 then
    [0xE0 ||| (n >>> 12), 0x80 ||| ((n >>> 6) &&& 0x3F), 0x80 ||| (n &&& 0x3F)]
  else
    [0xF0 ||| (n >>> 18), 0x80 ||| ((n >>> 12) &&& 0x3F),
     0x80 ||| ((n >>> 6) &&& 0x3F), 0x80 ||| (n &&& 0x3F)]

def utf8Bytes (s : String) : List Nat :=
  (s.data.map (fun c => utf8EncodeChar c.toNat)).flatten

/-! ## SHA-256 (`hashlib.sha256`), words as `Nat` mod 2^32 -/

def w32 (n : Nat) : Nat := n % 4294967296

def rotr32 (k n : Nat) : Nat := w32 ((n >>> k) ||| (n <<< (32 - k)))

def shaCh (x y z : Nat) : Nat := (x &&& y) ^^^ ((x ^^^ 4294967295) &&& z)

def shaMaj (x y z : Nat) : Nat := (x &&& y) ^^^ (x &&& z) ^^^ (y &&& z)

def bigSigma0 (n : Nat) : Nat := rotr32 2 n ^^^ rotr32 13 n ^^^ rotr32 22 n

def bigSigma1 (n : Nat) : Nat := rotr32 6 n ^^^ rotr32 11 n ^^^ rotr32 25 n

def smallSigma0 (n : Nat) : Nat := rotr32 7 n ^^^ rotr32 18 n ^^^ (n >>> 3)

def smallSigma1 (n : Nat) : Nat := rotr32 17 n ^^^ rotr32 19 n ^^^ (n >>> 10)

def shaK : List Nat :=
  [1116352408, 1899447441, 3049323471, 3921009573,
   961987163, 1508970993, 2453635748, 2870763221,
   3624381080, 310598401, 607225278, 1426881987,
   1925078388, 2162078206, 2614888103, 3248222580,
   3835390401, 4022224774, 264347078, 604807628,
   770255983, 1249150122, 1555081692, 1996064986,
   2554220882, 2821834349, 2952996808, 3210313671,
   3336571891, 3584528711, 113926993, 338241895,
   666307205, 773529912, 1294757372, 1396182291,
   1695183700, 1986661051, 2177026350, 2456956037,
   2730485921, 2820302411, 3259730800, 3345764771,
   3516065817, 3600352804, 4094571909, 275423344,
   430227734, 506948616, 659060556, 883997877,
   958139571, 1322822218, 1537002063, 1747873779,
   1955562222, 2024104815, 2227730452, 2361852424,
   2428436474, 2756734187, 3204031479, 3329325298]

structure Hash8 where
  h0 : Nat
  h1 : Nat
  h2 : Nat
  h3 : Nat
  h4 : Nat
  h5 : Nat
  h6 : Nat
  h7 : Nat

def shaInit : Hash8 :=
  ⟨1779033703, 3144134277, 1013904242, 2773480762,
   1359893119, 2600822924, 528734635, 1541459225⟩

structure Regs where
  a : Nat
  b : Nat
  c : Nat
  d : Nat
  e : Nat
  f : Nat
  g : Nat
  h : Nat

def compressStep (r : Regs) (kw : Nat × Nat) : Regs :=
  let t1 := w32 (r.h + bigSigma1 r.e + shaCh r.e r.f r.g + kw.1 + kw.2)
  let t2 := w32 (bigSigma0 r.a + shaMaj r.a r.b r.c)
  ⟨w32 (t1 + t2), r.a, r.b, r.c, w32 (r.d + t1), r.e, r.f, r.g⟩

def bytesToWords : List Nat → List Nat
  | b0 :: b1 :: b2 :: b3 :: rest =>
    (b0 * 16777216 + b1 * 65536 + b2 * 256 + b3) :: bytesToWords rest
  | _ => []

def schedLoop : Nat → List Nat → List Nat
  | 0, ws => ws
  | n + 1, ws =>
    let len := ws.length
    let next := w32 (smallSigma1 (ws.getD (len - 2) 0) + ws.getD (len - 7) 0 +
      smallSigma0 (ws.getD (len - 15) 0) + ws.getD (len - 16) 0)
    schedLoop n (ws ++ [next])

def compressBlock (H : Hash8) (block : List Nat) : Hash8 :=
  let ws := schedLoop 48 (bytesToWords block)
  let r0 : Regs := ⟨H.h0, H.h1, H.h2, H.h3, H.h4, H.h5, H.h6, H.h7⟩
  let r := (shaK.zip ws).foldl compressStep r0
  ⟨w32 (H.h0 + r.a), w32 (H.h1 + r.b), w32 (H.h2 + r.c), w32 (H.h3 + r.d),
   w32 (H.h4 + r.e), w32 (H.h5 + r.f), w32 (H.h6 + r.g), w32 (H.h7 + r.h)⟩

def lenBytes64 (n : Nat) : List Nat :=
  [(n >>> 56) % 256, (n >>> 48) % 256, (n >>> 40) % 256, (n >>> 32) % 256,
   (n >>> 24) % 256, (n >>> 16) % 256, (n >>> 8) % 256, n % 256]

def padBytes (msg : List Nat) : List Nat :=
  let L := msg.length
  msg ++ [0x80] ++ List.replicate ((64 + 55 - L % 64) % 64) 0 ++
    lenBytes64 (8 * L)

/-- Split into 64-byte blocks, fuelled for structural recursion (the fuel
only needs to dominate the number of blocks). -/
def chunksInto64 : Nat → List Nat → List (List Nat)
  | 0, _ => []
  | _ + 1, [] => []
  | fuel + 1, c :: r => ((c :: r).take 64) :: chunksInto64 fuel ((c :: r).drop 64)

def chunks64 (l : List Nat) : List (List Nat) := chunksInto64 l.length l

def sha256 (msg : List Nat) : Hash8 :=
  (chunks64 (padBytes msg)).foldl compressBlock shaInit

def wordBytes (w : Nat) : List Nat :=
  [(w >>> 24) % 256, (w >>> 16) % 256, (w >>> 8) % 256, w % 256]

def digestBytes (H : Hash8) : List Nat :=
  wordBytes H.h0 ++ wordBytes H.h1 ++ wordBytes H.h2 ++ wordBytes H.h3 ++
    wordBytes H.h4 ++ wordBytes H.h5 ++ wordBytes H.h6 ++ wordBytes H.h7

def hexDigitChar (n : Nat) : Char :=
  if n < 10 then Char.ofNat (48 + n) else Char.ofNat (87 + n)

def byteHex (b : Nat) : List Char := [hexDigitChar (b / 16 % 16), hexDigitChar (b % 16)]

def hexOfBytes (bs : List Nat) : List Char := (bs.map byteHex).flatten

/-- `hashlib.sha256(base.encode("utf-8")).hexdigest()` -/
def sha256Hex (s : String) : String :=
  String.mk (hexOfBytes (digestBytes (sha256 (utf8Bytes s))))

/-- `make_hash` from the source: hash of `normalize_title(title) + "|" + (url or "")`,
truncated to the first 24 hex characters.  A missing url (`None`) is the
`none` case of the option. -/
def make_hash (title : String) (url : Option String) : String :=
  let base := normalize_title title ++ "|" ++ url.getD ""
  String.mk ((sha256Hex base).data.take 24)

/-! ## Sentiment classifier -/

/-- Python `k in text` (substring containment): prefix-match at each suffix. -/
def leadMatch : List Char → List Char → Bool
  | a :: as, b :: bs => a == b && leadMatch as bs
  | [], _ => true
  | _, [] => false

def subMatch (k : List Char) : List Char → Bool
  | [] => k.isEmpty
  | c :: r => leadMatch k (c :: r) || subMatch k r

def strIn (k t : String) : Bool := subMatch k.data t.data

def BULL_KEYS_STRONG : List String :=
  ["무상증자", "자사주 매입", "배당 확대", "고배당", "특허 취득",
   "신제품", "지수 편입", "정부 정책", "경영권 분쟁 승소", "액면분할",
   "목표가 상향", "매수 의견", "어닝 서프라이즈", "실적 개선"]

def BEAR_KEYS_STRONG : List String :=
  ["유상증자", "무상감자", "전환사채", "주식관련사채", "불성실공시",
   "관리종목 지정", "감사의견", "의견거절", "부적정", "한정",
   "실적 악화", "가이던스 하향", "규제 강화", "환율 부담",
   "원자재 가격 상승", "소송", "횡령", "배임", "거래정지",
   "상장적격성", "대량 매도", "임원 매도", "최대주주 매도"]

/-- `BULL_KEYS = set(BULL_KEYS_STRONG + [...])`; for `any`-style membership
queries the set is equivalent to the concatenated list. -/
def BULL_KEYS : List String :=
  BULL_KEYS_STRONG ++ ["수주", "공급 계약", "사업 제휴", "인증 획득", "수혜", "테마"]

def BEAR_KEYS : List String :=
  BEAR_KEYS_STRONG ++ ["리콜", "계약 해지", "손상차손", "파기", "벌금", "제재", "압수수색"]

/-- `contains_any(text, keys) = any(k in text for k in keys)` -/
def contains_any (text : String) (keys : List String) : Bool :=
  keys.any (fun k => strIn k text)

/-- `classify_sentiment` from the source: four keyword checks in order,
else neutral. -/
def classify_sentiment (title : String) : String :=
  if contains_any title BEAR_KEYS_STRONG then "악재(강)"
  else if contains_any title BULL_KEYS_STRONG then "호재(강)"
  else if contains_any title BEAR_KEYS then "악재(보통)"
  else if contains_any title BULL_KEYS then "호재(보통)"
  else "중립"

/-! ## Python lexicographic string comparison (`<` / `>=` on `str`)

Python compares strings codepoint-wise lexicographically; `Char <` in Lean is
codepoint order. -/

def lexLt : List Char → List Char → Bool
  | [], [] => false
  | [], _ :: _ => true
  | _ :: _, [] => false
  | a :: as, b :: bs => if a < b then true else if b < a then false else lexLt as bs

def pyStrLt (a b : String) : Bool := lexLt a.data b.data

def pyStrGe (a b : String) : Bool := !pyStrLt a b

/-! ## The main-loop state and one poll cycle (lines 239–317 of the source) -/

/-- `minutes_ago(ts) = (now() - ts).total_seconds() / 60.0`, on epoch
seconds. -/
def minutes_ago (nowT ts : Int) : ℚ := ((nowT - ts : Int) : ℚ) / 60

/-- One raw event (`Item` dataclass).  `ts` is the publication time in epoch
seconds and `tsIso` its rendering by `datetime.isoformat()` (the two fields
jointly model the one `datetime` value). -/
structure Item where
  ts : Int
  tsIso : String
  source : String
  stock : String
  title : String
  url : String
deriving DecidableEq

/-- One `digest_buffer` entry as persisted in `state.json`:
`{"ts": iso, "src": ..., "stock": ..., "title": ..., "url": ...}`. -/
structure BufEntry where
  ts : String
  src : String
  stock : String
  title : String
  url : String
deriving DecidableEq

/-- The persisted scheduler state (`state.json` contents). -/
structure BotState where
  seen_hashes : List String
  digest_buffer : List BufEntry
  last_digest_unix : Int
deriving DecidableEq

/-- Python `lst[-n:]`: keep the last `n` elements. -/
def keepLast (n : Nat) (l : List α) : List α := l.drop (l.length - n)

/-- Lines 252–259 / 267–274: per-item ingestion.  Skip if older than
`MAX_ARTICLE_AGE_MIN` (90) minutes; skip if the fingerprint is already in
`seen_hashes`; otherwise record the fingerprint (truncating the store to its
last 8000 entries) and add the item to `newly`. -/
def ingestOne (nowT : Int) (acc : List String × List Item) (it : Item) :
    List String × List Item :=
  if minutes_ago nowT it.ts > 90 then acc
  else
    let h := make_hash it.title (some it.url)
    if h ∈ acc.1 then acc
    else (keepLast 8000 (acc.1 ++ [h]), acc.2 ++ [it])

/-- Stages 1–2 of a cycle: fold `ingestOne` over the cycle's raw events
(news items followed by registry items), starting from the persisted
`seen_hashes` and an empty `newly` list. -/
def ingestAll (nowT : Int) (seen : List String) (items : List Item) :
    List String × List Item :=
  items.foldl (ingestOne nowT) (seen, [])

/-- Line 281: `cat in ("악재(강)", "호재(강)")`. -/
def isStrongCat (cat : String) : Bool := cat == "악재(강)" || cat == "호재(강)"

/-- Stage 3: one immediate-alert attempt per strong-sentiment novel item. -/
def alertsOf (newly : List Item) : List Item :=
  newly.filter (fun it => isStrongCat (classify_sentiment it.title))

/-- Line 290: keep buffer entries whose `ts` field is truthy (non-empty) and
`>=` the cutoff's isoformat string — a Python string comparison. -/
def pruneBuffer (cutoffIso : String) (buf : List BufEntry) : List BufEntry :=
  buf.filter (fun d => !(d.ts == "") && pyStrGe d.ts cutoffIso)

def mkBufEntry (it : Item) : BufEntry :=
  ⟨it.tsIso, it.source, it.stock, it.title, it.url⟩

/-- Lines 291–293: append every novel item whose `ts` is within the 60-minute
digest window (`it.ts >= cutoff`, a datetime comparison). -/
def bufferAdds (nowT : Int) (newly : List Item) : List BufEntry :=
  (newly.filter (fun it => decide (nowT - 3600 ≤ it.ts))).map mkBufEntry

structure CycleOut where
  state : BotState
  alerts : List Item
  alertsDelivered : List Item
  added : List BufEntry
  digestFired : Bool
  digestDelivered : Bool

/-- One complete poll cycle (stages 1–7).  `cutoffIso` is
`(now() - timedelta(minutes=60)).isoformat()`; `alertOk` and `digestOk` are
the delivery outcomes of the Telegram calls (caught by `try/except` in the
source, so they influence only what is delivered, never the state). -/
def runCycle (st : BotState) (items : List Item) (nowT : Int)
    (cutoffIso : String) (alertOk : Item → Bool) (digestOk : Bool) : CycleOut :=
  let p := ingestAll nowT st.seen_hashes items
  let newly := p.2
  let alerts := alertsOf newly
  let buf2 := pruneBuffer cutoffIso st.digest_buffer ++ bufferAdds nowT newly
  let fire := decide (3600 ≤ nowT - st.last_digest_unix) && !buf2.isEmpty
  { state := if fire then ⟨p.1, [], nowT⟩ else ⟨p.1, buf2, st.last_digest_unix⟩
    alerts := alerts
    alertsDelivered := alerts.filter alertOk
    added := bufferAdds nowT newly
    digestFired := fire
    digestDelivered := fire && digestOk }

/-- The per-cycle inputs: the cycle's clock, the rendered digest cutoff, the
delivery outcomes, and the raw events fetched this cycle. -/
structure CycleIn where
  nowT : Int
  cutoffIso : String
  alertOk : Item → Bool
  digestOk : Bool
  items : List Item

/-- Run consecutive cycles, collecting all immediate-alert attempts and all
digest-buffer appends. -/
def runCycles : BotState → List CycleIn → BotState × List Item × List BufEntry
  | st, [] => (st, [], [])
  | st, cin :: rest =>
    let o := runCycle st cin.items cin.nowT cin.cutoffIso cin.alertOk cin.digestOk
    let r := runCycles o.state rest
    (r.1, o.alerts ++ r.2.1, o.added ++ r.2.2)

/-! ## Persisted state (`load_state` / `save_state`), JSON modelled as an AST -/

inductive Json where
  | null : Json
  | bool : Bool → Json
  | num : Int → Json
  | str : String → Json
  | arr : List Json → Json
  | obj : List (String × Json) → Json

def encodeEntry (d : BufEntry) : Json :=
  .obj [("ts", .str d.ts), ("src", .str d.src), ("stock", .str d.stock),
        ("title", .str d.title), ("url", .str d.url)]

/-- `save_state`: the JSON document `json.dump` writes. -/
def save_state (st : BotState) : Json :=
  .obj [("seen_hashes", .arr (st.seen_hashes.map .str)),
        ("digest_buffer", .arr (st.digest_buffer.map encodeEntry)),
        ("last_digest_unix", .num st.last_digest_unix)]

def defaultStateJson : Json :=
  .obj [("seen_hashes", .arr []), ("digest_buffer", .arr []),
        ("last_digest_unix", .num 0)]

/-- `load_state`: `none` models an absent `state.json` (defaults returned);
`some none` models a present but malformed file, where `json.load` raises an
uncaught `JSONDecodeError`; `some (some j)` a present well-formed file. -/
def load_state : Option (Option Json) → Except String Json
  | none => .ok defaultStateJson
  | some none => .error "JSONDecodeError"
  | some (some j) => .ok j

def lookupKey (k : String) : List (String × Json) → Option Json
  | [] => none
  | (k', v) :: rest => if k' = k then some v else lookupKey k rest

def decStr : Json → Option String
  | .str s => some s
  | _ => none

def decStrList : List Json → Option (List String)
  | [] => some []
  | j :: r =>
    match decStr j, decStrList r with
    | some s, some l => some (s :: l)
    | _, _ => none

def decEntry (j : Json) : Option BufEntry :=
  match j with
  | .obj kvs =>
    match lookupKey "ts" kvs, lookupKey "src" kvs, lookupKey "stock" kvs,
        lookupKey "title" kvs, lookupKey "url" kvs with
    | some (.str a), some (.str b), some (.str c), some (.str d), some (.str e) =>
      some ⟨a, b, c, d, e⟩
    | _, _, _, _, _ => none
  | _ => none

def decEntryList : List Json → Option (List BufEntry)
  | [] => some []
  | j :: r =>
    match decEntry j, decEntryList r with
    | some e, some l => some (e :: l)
    | _, _ => none

/-- Reading the three state fields back with their expected types, as the
main loop does (`state["seen_hashes"]` a list of strings, `digest_buffer` a
list of string records, `last_digest_unix` an integer). -/
def decodeState (j : Json) : Option BotState :=
  match j with
  | .obj kvs =>
    match lookupKey "seen_hashes" kvs, lookupKey "digest_buffer" kvs,
        lookupKey "last_digest_unix" kvs with
    | some (.arr hs), some (.arr ds), some (.num n) =>
      match decStrList hs, decEntryList ds with
      | some l, some es => some ⟨l, es, n⟩
      | _, _ => none
    | _, _, _ => none
  | _ => none

/-! ## Timestamps rendered by `datetime.isoformat()` in the fixed +09:00 zone -/

/-- A civil date-time in the system's single fixed zone (+09:00), at second
resolution — what `datetime.isoformat()` renders as
`YYYY-MM-DDTHH:MM:SS+09:00`. -/
structure DT where
  year : Nat
  month : Nat
  day : Nat
  hour : Nat
  minute : Nat
  second : Nat
deriving DecidableEq

def DT.Valid (d : DT) : Prop :=
  d.year < 10000 ∧ 1 ≤ d.month ∧ d.month ≤ 12 ∧ 1 ≤ d.day ∧ d.day ≤ 31 ∧
    d.hour < 24 ∧ d.minute < 60 ∧ d.second < 60

instance (d : DT) : Decidable d.Valid := by unfold DT.Valid; infer_instance

/-- Zero-padded fixed-width decimal rendering, most significant digit
first. -/
def padNum : Nat → Nat → List Char
  | 0, _ => []
  | w + 1, n => Nat.digitChar (n / 10 ^ w) :: padNum w (n % 10 ^ w)

def isoList (d : DT) : List Char :=
  padNum 4 d.year ++ '-' ::
    (padNum 2 d.month ++ '-' ::
      (padNum 2 d.day ++ 'T' ::
        (padNum 2 d.hour ++ ':' ::
          (padNum 2 d.minute ++ ':' ::
            (padNum 2 d.second ++ ['+', '0', '9', ':', '0', '0'])))))

/-- `datetime.isoformat()` for a microsecond-free datetime in the fixed
+09:00 zone. -/
def DT.iso (d : DT) : String := String.mk (isoList d)

/-- Chronological order of same-zone civil datetimes as one number
(fields are radix-100 digits under `DT.Valid`). -/
def DT.chronoKey (d : DT) : Nat :=
  ((((d.year * 100 + d.month) * 100 + d.day) * 100 + d.hour) * 100 +
    d.minute) * 100 + d.second

/-! ## Helper lemmas -/

theorem contains_any_of_mem {t k : String} {keys : List String} (hk : k ∈ keys)
    (hs : strIn k t = true) : contains_any t keys = true :=
  List.any_eq_true.mpr ⟨k, hk, hs⟩

/-! ## C5: classifier priority order -/

/-- C5: `classify_sentiment` evaluates the four keyword sets in the fixed
priority order strong-bear, strong-bull, weak-bear, weak-bull against the
untransformed title, returning the first category with a substring hit and
`중립` (Neutral) otherwise; a title containing both a strong-bear and a
strong-bull keyword classifies as `악재(강)` (StrongBear); the empty title
classifies as Neutral. -/
theorem classifier_priority : ∀ title : String,
    (contains_any title BEAR_KEYS_STRONG = true →
      classify_sentiment title = "악재(강)") ∧
    (contains_any title BEAR_KEYS_STRONG = false →
      contains_any title BULL_KEYS_STRONG = true →
      classify_sentiment title = "호재(강)") ∧
    (contains_any title BEAR_KEYS_STRONG = false →
      contains_any title BULL_KEYS_STRONG = false →
      contains_any title BEAR_KEYS = true →
      classify_sentiment title = "악재(보통)") ∧
    (contains_any title BEAR_KEYS_STRONG = false →
      contains_any title BULL_KEYS_STRONG = false →
      contains_any title BEAR_KEYS = false →
      contains_any title BULL_KEYS = true →
      classify_sentiment title = "호재(보통)") ∧
    (contains_any title BEAR_KEYS_STRONG = false →
      contains_any title BULL_KEYS_STRONG = false →
      contains_any title BEAR_KEYS = false →
      contains_any title BULL_KEYS = false →
      classify_sentiment title = "중립") ∧
    (∀ kb kl : String, kb ∈ BEAR_KEYS_STRONG → kl ∈ BULL_KEYS_STRONG →
      strIn kb title = true → strIn kl title = true →
      classify_sentiment title = "악재(강)") ∧
    classify_sentiment "" = "중립" := by
  intro title
  refine ⟨?_, ?_, ?_, ?_, ?_, ?_, ?_⟩
  · intro h1; simp [classify_sentiment, h1]
  · intro h1 h2; simp [classify_sentiment, h1, h2]
  · intro h1 h2 h3; simp [classify_sentiment, h1, h2, h3]
  · intro h1 h2 h3 h4; simp [classify_sentiment, h1, h2, h3, h4]
  · intro h1 h2 h3 h4; simp [classify_sentiment, h1, h2, h3, h4]
  · intro kb kl hkb hkl hsb hsl
    simp [classify_sentiment, contains_any_of_mem hkb hsb]
  · decide

/-- C5 witness: the concrete title `유상증자·무상증자 동시 결정` contains the
strong-bear keyword `유상증자` and the strong-bull keyword `무상증자`, and is
classified `악재(강)`. -/
theorem classifier_priority_witness :
    strIn "유상증자" "유상증자·무상증자 동시 결정" = true ∧
    strIn "무상증자" "유상증자·무상증자 동시 결정" = true ∧
    classify_sentiment "유상증자·무상증자 동시 결정" = "악재(강)" :=
  ⟨by decide, by decide,
    (classifier_priority "유상증자·무상증자 동시 결정").2.2.2.2.2.1
      "유상증자" "무상증자" (by decide) (by decide) (by decide) (by decide)⟩

/-! ## C7: state persistence round-trip -/

theorem decStrList_map (l : List String) :
    decStrList (l.map Json.str) = some l := by
  induction l with
  | nil => rfl
  | cons s r ih => simp [decStrList, decStr, ih]

theorem decEntry_encodeEntry (e : BufEntry) :
    decEntry (encodeEntry e) = some e := rfl

theorem decEntryList_map (l : List BufEntry) :
    decEntryList (l.map encodeEntry) = some l := by
  induction l with
  | nil => rfl
  | cons e r ih => simp [decEntryList, decEntry_encodeEntry, ih]

/-- C7: loading with no state file yields the empty-defaults state (empty
fingerprint list, empty digest buffer, last-digest time 0), and for every
scheduler state, `load(save(state))` returns exactly the document saved, and
reading its three fields back with their expected types recovers the state
exactly. -/
theorem state_roundtrip :
    (load_state none = .ok defaultStateJson ∧
      decodeState defaultStateJson = some ⟨[], [], 0⟩) ∧
    ∀ st : BotState,
      load_state (some (some (save_state st))) = .ok (save_state st) ∧
      decodeState (save_state st) = some st := by
  refine ⟨⟨rfl, rfl⟩, fun st => ⟨rfl, ?_⟩⟩
  simp [save_state, decodeState, lookupKey, decStrList_map, decEntryList_map]

/-! ## C8: malformed state file -/

/-- C8 counterexample: a present-but-malformed state file does not fall back
to the empty defaults — `json.load` raises an uncaught `JSONDecodeError`
(`load_state` has no exception handler), so loading is an error, not the
defaults. -/
theorem load_state_malformed_cx :
    load_state (some none) = Except.error "JSONDecodeError" ∧
    load_state (some none) ≠ Except.ok defaultStateJson :=
  ⟨rfl, fun h => Except.noConfusion h⟩

/-- C8 amended: only an absent state file falls back to the empty defaults;
a present file is returned as parsed, and a present-but-malformed file
raises (is fatal), it does not fall back to the defaults. -/
theorem load_state_behaviour :
    load_state none = Except.ok defaultStateJson ∧
    (∀ j : Json, load_state (some (some j)) = Except.ok j) ∧
    load_state (some none) = Except.error "JSONDecodeError" :=
  ⟨rfl, fun _ => rfl, rfl⟩

/-! ## C2: the 90-minute age window boundary -/

theorem minutes_ago_gt_iff (nowT ts : Int) :
    minutes_ago nowT ts > 90 ↔ nowT - ts > 5400 := by
  unfold minutes_ago
  rw [gt_iff_lt, lt_div_iff₀ (by norm_num : (0 : ℚ) < 60),
    show (90 : ℚ) * 60 = ((5400 : Int) : ℚ) by norm_num, Int.cast_lt, gt_iff_lt]

theorem keepLast_of_le {l : List α} {n : Nat} (h : l.length ≤ n) :
    keepLast n l = l := by
  unfold keepLast
  rw [Nat.sub_eq_zero_of_le h, List.drop_zero]

/-- A news item dated exactly 90 minutes (5400 seconds) before the cycle's
clock. -/
def itemAtBoundary : Item :=
  ⟨1999994600, "2033-05-18T10:43:20+09:00", "news", "삼성전자", "무상증자 결정",
    "http://example.com/a"⟩

/-- C2 counterexample: the claim says an event with `occurred_at` exactly at
`now - MAX_ARTICLE_AGE` (90 minutes before now) is excluded from processing.
On the code the skip test is strict (`minutes_ago > 90`), so at
`nowT = 2000000000` the item dated exactly 5400 seconds earlier is NOT
excluded: it is ingested as a novel event. -/
theorem age_boundary_cx :
    minutes_ago 2000000000 itemAtBoundary.ts = 90 ∧
    (ingestAll 2000000000 [] [itemAtBoundary]).2 = [itemAtBoundary] := by
  have h1 : ¬ minutes_ago 2000000000 itemAtBoundary.ts > 90 := by
    rw [minutes_ago_gt_iff]; decide
  constructor
  · norm_num [minutes_ago, itemAtBoundary]
  · simp [ingestAll, ingestOne, h1, keepLast]

/-- C2 amended: the age-window boundary is inclusive at the threshold: an
event exactly at `now - MAX_ARTICLE_AGE` (age 5400 seconds) is still
processed, an event one second inside the window is processed, and only
events strictly older than 90 minutes are excluded (the skip condition
`minutes_ago > 90` is equivalent to an age of more than 5400 seconds). -/
theorem age_window_boundary :
    ∀ (nowT : Int) (it : Item) (acc : List String × List Item),
      (minutes_ago nowT it.ts > 90 ↔ nowT - it.ts > 5400) ∧
      (nowT - it.ts > 5400 → ingestOne nowT acc it = acc) ∧
      (nowT - it.ts ≤ 5400 → make_hash it.title (some it.url) ∉ acc.1 →
        acc.1.length < 8000 →
        ingestOne nowT acc it =
          (acc.1 ++ [make_hash it.title (some it.url)], acc.2 ++ [it])) := by
  intro nowT it acc
  refine ⟨minutes_ago_gt_iff _ _, ?_, ?_⟩
  · intro h
    unfold ingestOne
    rw [if_pos ((minutes_ago_gt_iff _ _).mpr h)]
  · intro hage hmem hlen
    unfold ingestOne
    rw [if_neg (fun hgt => absurd ((minutes_ago_gt_iff _ _).mp hgt) (by omega)),
      if_neg hmem, keepLast_of_le (by simp; omega)]

/-- C2 witness: at `nowT = 10000` an item dated 5400 seconds earlier (exactly
at the threshold) is ingested into the empty store. -/
theorem age_window_boundary_witness :
    (10000 : Int) - (⟨4600, "i", "news", "s", "t", "u"⟩ : Item).ts ≤ 5400 ∧
    ingestOne 10000 ([], []) ⟨4600, "i", "news", "s", "t", "u"⟩ =
      ([make_hash "t" (some "u")], [⟨4600, "i", "news", "s", "t", "u"⟩]) := by
  refine ⟨by decide, ?_⟩
  have h := (age_window_boundary 10000 ⟨4600, "i", "news", "s", "t", "u"⟩
    ([], [])).2.2 (by decide) (by simp) (by decide)
  simpa using h

/-! ## C4: bounded FIFO eviction of the dedup store -/

/-- Lines 255–258 restricted to the store: record a sequence of fingerprints,
skipping ones already present and truncating to the last 8000 after each
append. -/
def recordAll (store : List String) (fps : List String) : List String :=
  fps.foldl (fun s fp => if fp ∈ s then s else keepLast 8000 (s ++ [fp])) store

theorem keepLast_append (n : Nat) (l₁ l₂ : List α) :
    keepLast n (keepLast n l₁ ++ l₂) = keepLast n (l₁ ++ l₂) := by
  by_cases h : l₁.length ≤ n
  · rw [keepLast_of_le h]
  · push_neg at h
    unfold keepLast
    simp only [List.length_append, List.length_drop,
      List.drop_append_eq_append_drop, List.drop_drop]
    congr 1 <;> (congr 1; omega)

theorem recordAll_nil (s : List String) : recordAll s [] = s := rfl

theorem recordAll_cons (s : List String) (fp : String) (rest : List String) :
    recordAll s (fp :: rest) =
      recordAll (if fp ∈ s then s else keepLast 8000 (s ++ [fp])) rest := rfl

theorem recordAll_fifo (pre fps : List String) (h : (pre ++ fps).Nodup) :
    recordAll (keepLast 8000 pre) fps = keepLast 8000 (pre ++ fps) := by
  induction fps generalizing pre with
  | nil => rw [recordAll_nil, List.append_nil]
  | cons fp rest ih =>
    have hdisj : pre.Disjoint (fp :: rest) := List.disjoint_of_nodup_append h
    have hfp : fp ∉ keepLast 8000 pre :=
      fun hm => hdisj (List.drop_subset _ _ hm) (List.mem_cons_self fp rest)
    rw [recordAll_cons, if_neg hfp, keepLast_append,
      ih (pre ++ [fp]) (by simpa using h), List.append_assoc,
      List.singleton_append]

/-- C4: after inserting `M > 8000` distinct fingerprints into the empty
store via the append-then-truncate discipline of lines 255–258, the store is
exactly the last 8000 fingerprints in insertion order: it has length 8000,
the 8000 most recently inserted are all present, and the earliest `M - 8000`
are all absent (oldest-first FIFO eviction). -/
theorem dedup_store_eviction : ∀ fps : List String, fps.Nodup →
    8000 < fps.length →
    recordAll [] fps = fps.drop (fps.length - 8000) ∧
    (recordAll [] fps).length = 8000 ∧
    (∀ fp ∈ fps.drop (fps.length - 8000), fp ∈ recordAll [] fps) ∧
    (∀ fp ∈ fps.take (fps.length - 8000), fp ∉ recordAll [] fps) := by
  intro fps hn hlen
  have heq : recordAll [] fps = fps.drop (fps.length - 8000) := by
    have h0 := recordAll_fifo [] fps (by simpa using hn)
    rw [show keepLast 8000 ([] : List String) = [] from rfl, List.nil_append] at h0
    exact h0.trans (show keepLast 8000 fps = fps.drop (fps.length - 8000) from rfl)
  refine ⟨heq, ?_, ?_, ?_⟩
  · rw [heq, List.length_drop]; omega
  · intro fp hm; rw [heq]; exact hm
  · intro fp hm hmem
    rw [heq] at hmem
    rw [← List.take_append_drop (fps.length - 8000) fps] at hn
    exact List.disjoint_of_nodup_append hn hm hmem

/-- Distinct fingerprints for the C4 witness. -/
def fpGen (i : Nat) : String := String.mk (List.replicate i 'a')

theorem fpGen_inj : Function.Injective fpGen := by
  intro a b h
  have h2 := congrArg String.data h
  simp only [fpGen] at h2
  have h3 := congrArg List.length h2
  simpa using h3

/-- C4 witness: 8001 distinct fingerprints inserted into the empty store
leave exactly 8000. -/
theorem dedup_store_eviction_witness :
    ((List.range 8001).map fpGen).Nodup ∧
    8000 < ((List.range 8001).map fpGen).length ∧
    (recordAll [] ((List.range 8001).map fpGen)).length = 8000 := by
  have hn : ((List.range 8001).map fpGen).Nodup :=
    (List.nodup_range 8001).map fpGen_inj
  have hl : 8000 < ((List.range 8001).map fpGen).length := by simp
  exact ⟨hn, hl, (dedup_store_eviction _ hn hl).2.1⟩

/-! ## C3: digest-fire decision and unconditional drain -/

theorem runCycle_state_def (st : BotState) (items : List Item) (nowT : Int)
    (cutoffIso : String) (aOk : Item → Bool) (dOk : Bool) :
    (runCycle st items nowT cutoffIso aOk dOk).state =
      (if decide (3600 ≤ nowT - st.last_digest_unix) &&
          !(pruneBuffer cutoffIso st.digest_buffer ++
            bufferAdds nowT (ingestAll nowT st.seen_hashes items).2).isEmpty then
        ⟨(ingestAll nowT st.seen_hashes items).1, [], nowT⟩
      else
        ⟨(ingestAll nowT st.seen_hashes items).1,
          pruneBuffer cutoffIso st.digest_buffer ++
            bufferAdds nowT (ingestAll nowT st.seen_hashes items).2,
          st.last_digest_unix⟩) := rfl

theorem runCycle_fired_def (st : BotState) (items : List Item) (nowT : Int)
    (cutoffIso : String) (aOk : Item → Bool) (dOk : Bool) :
    (runCycle st items nowT cutoffIso aOk dOk).digestFired =
      (decide (3600 ≤ nowT - st.last_digest_unix) &&
        !(pruneBuffer cutoffIso st.digest_buffer ++
          bufferAdds nowT (ingestAll nowT st.seen_hashes items).2).isEmpty) := rfl

/-- C3: in every cycle a digest fires iff at least 60 minutes (3600 s)
elapsed since `last_digest_unix` AND the (pruned, updated) digest buffer is
non-empty; immediately after a fire the buffer is empty and
`last_digest_unix` is reset to the cycle's clock; with no fire both are left
as they were; and the resulting state is independent of the delivery/summary
outcomes (a failed digest is still drained, never retried). -/
theorem digest_cadence : ∀ (st : BotState) (items : List Item) (nowT : Int)
    (cutoffIso : String) (aOk aOk' : Item → Bool) (dOk dOk' : Bool),
    ((runCycle st items nowT cutoffIso aOk dOk).digestFired = true ↔
      3600 ≤ nowT - st.last_digest_unix ∧
      pruneBuffer cutoffIso st.digest_buffer ++
        bufferAdds nowT (ingestAll nowT st.seen_hashes items).2 ≠ []) ∧
    ((runCycle st items nowT cutoffIso aOk dOk).digestFired = true →
      (runCycle st items nowT cutoffIso aOk dOk).state.digest_buffer = [] ∧
      (runCycle st items nowT cutoffIso aOk dOk).state.last_digest_unix = nowT) ∧
    ((runCycle st items nowT cutoffIso aOk dOk).digestFired = false →
      (runCycle st items nowT cutoffIso aOk dOk).state.digest_buffer =
        pruneBuffer cutoffIso st.digest_buffer ++
          bufferAdds nowT (ingestAll nowT st.seen_hashes items).2 ∧
      (runCycle st items nowT cutoffIso aOk dOk).state.last_digest_unix =
        st.last_digest_unix) ∧
    (runCycle st items nowT cutoffIso aOk dOk).state =
      (runCycle st items nowT cutoffIso aOk' dOk').state := by
  intro st items nowT cutoffIso aOk aOk' dOk dOk'
  refine ⟨?_, ?_, ?_, rfl⟩
  · rw [runCycle_fired_def]
    simp [List.isEmpty_iff]
  · intro h
    rw [runCycle_fired_def] at h
    rw [runCycle_state_def, if_pos h]
    exact ⟨rfl, rfl⟩
  · intro h
    rw [runCycle_fired_def] at h
    rw [runCycle_state_def, if_neg (by rw [h]; exact Bool.false_ne_true)]
    exact ⟨rfl, rfl⟩

/-- Concrete pre-cycle state for the C3 witness: an hour-old last digest and
one buffered entry. -/
def stForDigest : BotState :=
  ⟨[], [⟨"2020-01-01T00:00:00+09:00", "news", "삼성전자", "t", "u"⟩], 0⟩

/-- C3 witness: with `last_digest_unix = 0`, clock 3600 and a non-empty
buffer, the digest fires and immediately afterwards the buffer is empty and
`last_digest_unix` is 3600, with delivery forced to fail. -/
theorem digest_cadence_witness :
    (runCycle stForDigest [] 3600 "" (fun _ => false) false).digestFired = true ∧
    (runCycle stForDigest [] 3600 "" (fun _ => false) false).state.digest_buffer = [] ∧
    (runCycle stForDigest [] 3600 "" (fun _ => false) false).state.last_digest_unix = 3600 := by
  have hf : (runCycle stForDigest [] 3600 "" (fun _ => false) false).digestFired = true := by
    rfl
  have h2 := (digest_cadence stForDigest [] 3600 "" (fun _ => false)
    (fun _ => false) false false).2.1 hf
  exact ⟨hf, h2.1, h2.2⟩

/-! ## C6: fingerprint stability -/

def headNotWs : List Char → Bool
  | [] => true
  | c :: _ => !isWs c

/-- Two character lists that differ only in the lengths/contents of their
whitespace runs: equal non-whitespace characters, with each maximal
whitespace run replaced by another non-empty whitespace run. -/
inductive WSEquiv : List Char → List Char → Prop
  | nil : WSEquiv [] []
  | cons (c : Char) (hc : isWs c = false) {l₁ l₂ : List Char} :
      WSEquiv l₁ l₂ → WSEquiv (c :: l₁) (c :: l₂)
  | run (r₁ r₂ : List Char) (h₁ : r₁.isEmpty = false) (h₂ : r₂.isEmpty = false)
      (hw₁ : r₁.all isWs = true) (hw₂ : r₂.all isWs = true)
      {l₁ l₂ : List Char}
      (hh₁ : headNotWs l₁ = true) (hh₂ : headNotWs l₂ = true) :
      WSEquiv l₁ l₂ → WSEquiv (r₁ ++ l₁) (r₂ ++ l₂)

theorem collapseRuns_nil (n : Nat) : collapseRuns n [] = [] := by
  cases n <;> rfl

theorem dropWhile_ws_append {rs l : List Char} (hw : rs.all isWs = true)
    (hh : headNotWs l = true) : (rs ++ l).dropWhile isWs = l := by
  induction rs with
  | nil =>
    cases l with
    | nil => rfl
    | cons c cl =>
      have : isWs c = false := by simpa [headNotWs] using hh
      simp [List.dropWhile_cons, this]
  | cons a as ih =>
    simp only [List.all_cons, Bool.and_eq_true] at hw
    simp [List.dropWhile_cons, hw.1, ih hw.2]

theorem collapseRuns_congr {l₁ l₂ : List Char} (h : WSEquiv l₁ l₂) :
    ∀ n₁ n₂ : Nat, l₁.length ≤ n₁ → l₂.length ≤ n₂ →
      collapseRuns n₁ l₁ = collapseRuns n₂ l₂ := by
  induction h with
  | nil => intro n₁ n₂ _ _; rw [collapseRuns_nil, collapseRuns_nil]
  | cons c hc h ih =>
    intro n₁ n₂ hb₁ hb₂
    match n₁, hb₁ with
    | m₁ + 1, hb₁ =>
    match n₂, hb₂ with
    | m₂ + 1, hb₂ =>
    simp only [collapseRuns, hc, Bool.false_eq_true, if_false]
    exact congrArg _ (ih m₁ m₂ (by simpa using hb₁) (by simpa using hb₂))
  | run r₁ r₂ h₁ h₂ hw₁ hw₂ hh₁ hh₂ h ih =>
    intro n₁ n₂ hb₁ hb₂
    match r₁, h₁ with
    | a :: rs, _ =>
    match r₂, h₂ with
    | b :: bs, _ =>
    simp only [List.cons_append, List.length_cons, List.length_append] at hb₁ hb₂ ⊢
    match n₁, hb₁ with
    | m₁ + 1, hb₁ =>
    match n₂, hb₂ with
    | m₂ + 1, hb₂ =>
    simp only [List.all_cons, Bool.and_eq_true] at hw₁ hw₂
    simp only [collapseRuns, hw₁.1, if_true, hw₂.1,
      dropWhile_ws_append hw₁.2 hh₁, dropWhile_ws_append hw₂.2 hh₂]
    exact congrArg _ (ih m₁ m₂ (by omega) (by omega))

theorem collapseWS_congr {l₁ l₂ : List Char} (h : WSEquiv l₁ l₂) :
    collapseWS l₁ = collapseWS l₂ :=
  collapseRuns_congr h _ _ (Nat.le_refl _) (Nat.le_refl _)

theorem make_hash_congr {t₁ t₂ : String} (u : Option String)
    (h : collapseWS (t₁.data.map lowerChar) = collapseWS (t₂.data.map lowerChar)) :
    make_hash t₁ u = make_hash t₂ u := by
  unfold make_hash normalize_title
  rw [h]

def hexChars : List Char := "0123456789abcdef".data

theorem hexDigitChar_mem : ∀ n : Nat, n < 16 → hexDigitChar n ∈ hexChars := by
  decide

theorem hexOfBytes_length (bs : List Nat) :
    (hexOfBytes bs).length = 2 * bs.length := by
  induction bs with
  | nil => rfl
  | cons b r ih =>
    simp only [hexOfBytes, List.map_cons, List.flatten_cons] at ih ⊢
    simp [byteHex, ih]
    omega

theorem mem_hexOfBytes (bs : List Nat) : ∀ c ∈ hexOfBytes bs, c ∈ hexChars := by
  induction bs with
  | nil => intro c hc; simp [hexOfBytes] at hc
  | cons b r ih =>
    intro c hc
    simp only [hexOfBytes, List.map_cons, List.flatten_cons, List.mem_append] at hc
    rcases hc with hc | hc
    · simp only [byteHex, List.mem_cons, List.mem_singleton] at hc
      rcases hc with rfl | rfl | h
      · exact hexDigitChar_mem _ (Nat.mod_lt _ (by norm_num))
      · exact hexDigitChar_mem _ (Nat.mod_lt _ (by norm_num))
      · cases h
    · exact ih c hc

theorem digestBytes_length (H : Hash8) : (digestBytes H).length = 32 := by
  simp [digestBytes, wordBytes]

theorem sha256Hex_data_length (s : String) : (sha256Hex s).data.length = 64 := by
  show (hexOfBytes (digestBytes (sha256 (utf8Bytes s)))).length = 64
  rw [hexOfBytes_length, digestBytes_length]

set_option maxRecDepth 200000 in
/-- C6: `make_hash` is deterministic; always yields exactly 24 characters,
all lowercase hex digits; is invariant to case differences in the title
(equal lowercased titles hash equal) and to whitespace-run differences
(WSEquiv-related lowercased titles hash equal); treats a missing url exactly
as the empty string; and concretely distinguishes distinct normalized
inputs, e.g. titles `a` and `b`. -/
theorem fingerprint_stability :
    (∀ (t : String) (u : Option String), make_hash t u = make_hash t u) ∧
    (∀ (t : String) (u : Option String), (make_hash t u).length = 24 ∧
      ∀ c ∈ (make_hash t u).data, c ∈ hexChars) ∧
    (∀ (t₁ t₂ : String) (u : Option String),
      t₁.data.map lowerChar = t₂.data.map lowerChar →
      make_hash t₁ u = make_hash t₂ u) ∧
    (∀ (t₁ t₂ : String) (u : Option String),
      WSEquiv (t₁.data.map lowerChar) (t₂.data.map lowerChar) →
      make_hash t₁ u = make_hash t₂ u) ∧
    (∀ t : String, make_hash t none = make_hash t (some "")) ∧
    make_hash "a" none ≠ make_hash "b" none := by
  refine ⟨fun t u => rfl, fun t u => ⟨?_, ?_⟩, ?_, ?_, fun t => rfl, ?_⟩
  · show ((sha256Hex _).data.take 24).length = 24
    rw [List.length_take, sha256Hex_data_length]
    rfl
  · intro c hc
    have h1 : c ∈ (sha256Hex (normalize_title t ++ "|" ++ u.getD "")).data :=
      List.take_subset _ _ hc
    exact mem_hexOfBytes _ c h1
  · intro t₁ t₂ u h
    exact make_hash_congr u (congrArg collapseWS h)
  · intro t₁ t₂ u h
    exact make_hash_congr u (collapseWS_congr h)
  · decide

/-- C6 witness: the titles `AB  c` and `Ab c` differ only in case and in the
length of one whitespace run, and produce the same fingerprint. -/
theorem fingerprint_stability_witness :
    WSEquiv ("AB  c".data.map lowerChar) ("Ab c".data.map lowerChar) ∧
    make_hash "AB  c" (some "u") = make_hash "Ab c" (some "u") := by
  have hw : WSEquiv ("AB  c".data.map lowerChar) ("Ab c".data.map lowerChar) :=
    .cons 'a' (by decide) (.cons 'b' (by decide)
      (.run [' ', ' '] [' '] (by decide) (by decide) (by decide) (by decide)
        (by decide) (by decide) (.cons 'c' (by decide) .nil)))
  exact ⟨hw, fingerprint_stability.2.2.2.1 "AB  c" "Ab c" (some "u") hw⟩

/-! ## C1: idempotence of repeated (title, url) submissions -/

theorem ingestOne_of_seen {nowT : Int} {acc : List String × List Item}
    {it : Item} (h : make_hash it.title (some it.url) ∈ acc.1) :
    ingestOne nowT acc it = acc := by
  unfold ingestOne
  by_cases hst : minutes_ago nowT it.ts > 90
  · rw [if_pos hst]
  · rw [if_neg hst, if_pos h]

theorem foldl_ingest_seen {nowT : Int} {h : String} :
    ∀ (items : List Item) (acc : List String × List Item),
      (∀ x ∈ items, make_hash x.title (some x.url) = h) → h ∈ acc.1 →
      items.foldl (ingestOne nowT) acc = acc := by
  intro items
  induction items with
  | nil => intro acc _ _; rfl
  | cons it rest ih =>
    intro acc hall hmem
    rw [List.foldl_cons,
      ingestOne_of_seen (by rw [hall it (List.mem_cons_self it rest)]; exact hmem)]
    exact ih acc (fun x hx => hall x (List.mem_cons_of_mem it hx)) hmem

theorem ingestAll_first {nowT : Int} {seen : List String} {it : Item}
    {its : List Item}
    (hfresh : ¬ minutes_ago nowT it.ts > 90)
    (hnew : make_hash it.title (some it.url) ∉ seen)
    (hlen : seen.length < 8000)
    (hall : ∀ x ∈ its,
      make_hash x.title (some x.url) = make_hash it.title (some it.url)) :
    ingestAll nowT seen (it :: its) =
      (seen ++ [make_hash it.title (some it.url)], [it]) := by
  unfold ingestAll
  rw [List.foldl_cons]
  have hstep : ingestOne nowT (seen, []) it =
      (seen ++ [make_hash it.title (some it.url)], [it]) := by
    unfold ingestOne
    rw [if_neg hfresh, if_neg hnew, keepLast_of_le (by simp; omega)]
    rfl
  rw [hstep]
  exact foldl_ingest_seen its _ hall (by simp)

theorem runCycle_seen (st : BotState) (items : List Item) (nowT : Int)
    (cutoffIso : String) (aOk : Item → Bool) (dOk : Bool) :
    (runCycle st items nowT cutoffIso aOk dOk).state.seen_hashes =
      (ingestAll nowT st.seen_hashes items).1 := by
  rw [runCycle_state_def]
  split <;> rfl

theorem runCycle_alerts_def (st : BotState) (items : List Item) (nowT : Int)
    (cutoffIso : String) (aOk : Item → Bool) (dOk : Bool) :
    (runCycle st items nowT cutoffIso aOk dOk).alerts =
      alertsOf (ingestAll nowT st.seen_hashes items).2 := rfl

theorem runCycle_added_def (st : BotState) (items : List Item) (nowT : Int)
    (cutoffIso : String) (aOk : Item → Bool) (dOk : Bool) :
    (runCycle st items nowT cutoffIso aOk dOk).added =
      bufferAdds nowT (ingestAll nowT st.seen_hashes items).2 := rfl

theorem runCycles_cons (st : BotState) (cin : CycleIn) (rest : List CycleIn) :
    runCycles st (cin :: rest) =
      ((runCycles (runCycle st cin.items cin.nowT cin.cutoffIso cin.alertOk
          cin.digestOk).state rest).1,
        (runCycle st cin.items cin.nowT cin.cutoffIso cin.alertOk
          cin.digestOk).alerts ++
          (runCycles (runCycle st cin.items cin.nowT cin.cutoffIso cin.alertOk
            cin.digestOk).state rest).2.1,
        (runCycle st cin.items cin.nowT cin.cutoffIso cin.alertOk
          cin.digestOk).added ++
          (runCycles (runCycle st cin.items cin.nowT cin.cutoffIso cin.alertOk
            cin.digestOk).state rest).2.2) := rfl

theorem runCycles_skip {h : String} :
    ∀ (rest : List CycleIn) (st : BotState), h ∈ st.seen_hashes →
      (∀ cin ∈ rest, ∀ x ∈ cin.items, make_hash x.title (some x.url) = h) →
      (runCycles st rest).1.seen_hashes = st.seen_hashes ∧
      (runCycles st rest).2.1 = [] ∧ (runCycles st rest).2.2 = [] := by
  intro rest
  induction rest with
  | nil => intro st _ _; exact ⟨rfl, rfl, rfl⟩
  | cons cin rest ih =>
    intro st hmem hall
    have hing : ingestAll cin.nowT st.seen_hashes cin.items =
        (st.seen_hashes, []) := by
      unfold ingestAll
      exact foldl_ingest_seen cin.items _
        (hall cin (List.mem_cons_self cin rest)) hmem
    have hseen : (runCycle st cin.items cin.nowT cin.cutoffIso cin.alertOk
        cin.digestOk).state.seen_hashes = st.seen_hashes := by
      rw [runCycle_seen, hing]
    have halerts : (runCycle st cin.items cin.nowT cin.cutoffIso cin.alertOk
        cin.digestOk).alerts = [] := by
      rw [runCycle_alerts_def, hing]
      rfl
    have hadded : (runCycle st cin.items cin.nowT cin.cutoffIso cin.alertOk
        cin.digestOk).added = [] := by
      rw [runCycle_added_def, hing]
      rfl
    obtain ⟨ih1, ih2, ih3⟩ := ih _ (hseen ▸ hmem)
      (fun c hc => hall c (List.mem_cons_of_mem cin hc))
    rw [runCycles_cons]
    exact ⟨ih1.trans hseen, by rw [halerts, ih2]; rfl, by rw [hadded, ih3]; rfl⟩

/-- C1 amended: feeding the same (title, url) pair any number of times,
across sources and across consecutive cycles, produces exactly one
immediate-alert attempt when its classification is strong (none otherwise),
exactly one digest-buffer entry when its `occurred_at` is within the
60-minute digest window at first processing (none otherwise), and grows the
deduplication store by exactly one fingerprint while the store is below its
8000-entry cap; source and entity fields play no role in the deduplication
key. -/
theorem single_pair_idempotence :
    ∀ (st₀ : BotState) (it₀ : Item) (its₀ : List Item) (cin₀ : CycleIn)
      (rest : List CycleIn),
      cin₀.items = it₀ :: its₀ →
      make_hash it₀.title (some it₀.url) ∉ st₀.seen_hashes →
      st₀.seen_hashes.length < 8000 →
      cin₀.nowT - it₀.ts ≤ 5400 →
      (∀ x ∈ its₀,
        make_hash x.title (some x.url) = make_hash it₀.title (some it₀.url)) →
      (∀ cin ∈ rest, ∀ x ∈ cin.items,
        make_hash x.title (some x.url) = make_hash it₀.title (some it₀.url)) →
      (runCycles st₀ (cin₀ :: rest)).1.seen_hashes =
        st₀.seen_hashes ++ [make_hash it₀.title (some it₀.url)] ∧
      (runCycles st₀ (cin₀ :: rest)).2.1 =
        (if isStrongCat (classify_sentiment it₀.title) then [it₀] else []) ∧
      (runCycles st₀ (cin₀ :: rest)).2.2 =
        (if cin₀.nowT - 3600 ≤ it₀.ts then [mkBufEntry it₀] else []) := by
  intro st₀ it₀ its₀ cin₀ rest hitems hnew hlen hage hall hallrest
  have hfresh : ¬ minutes_ago cin₀.nowT it₀.ts > 90 := by
    rw [minutes_ago_gt_iff]; omega
  have hing : ingestAll cin₀.nowT st₀.seen_hashes cin₀.items =
      (st₀.seen_hashes ++ [make_hash it₀.title (some it₀.url)], [it₀]) := by
    rw [hitems]
    exact ingestAll_first hfresh hnew hlen hall
  have hseen : (runCycle st₀ cin₀.items cin₀.nowT cin₀.cutoffIso cin₀.alertOk
      cin₀.digestOk).state.seen_hashes =
      st₀.seen_hashes ++ [make_hash it₀.title (some it₀.url)] := by
    rw [runCycle_seen, hing]
  obtain ⟨hr1, hr2, hr3⟩ := runCycles_skip rest _
    (by rw [hseen]; simp) hallrest
  rw [runCycles_cons]
  refine ⟨hr1.trans hseen, ?_, ?_⟩
  · rw [hr2, List.append_nil, runCycle_alerts_def, hing]
    simp only [alertsOf, List.filter]
    split <;> rename_i hc <;> simp [hc]
  · rw [hr3, List.append_nil, runCycle_added_def, hing]
    simp only [bufferAdds, List.filter]
    by_cases hc : cin₀.nowT - 3600 ≤ it₀.ts
    · simp [hc]
    · simp [hc]

/-- A strong-sentiment news item 75 minutes old: inside the 90-minute age
window but outside the 60-minute digest window. -/
def oldStrongItem : Item :=
  ⟨1999995500, "2033-05-18T10:58:20+09:00", "news", "삼성전자", "무상증자 결정",
    "http://example.com/b"⟩

/-- C1 counterexample: the claim promises exactly one digest-buffer entry
for every (strong, novel, in-age-window) raw event, but an event 75 minutes
old is immediately alerted exactly once while producing ZERO digest-buffer
entries (it misses the 60-minute digest window), refuting the unconditional
"exactly one digest-buffer entry". -/
theorem single_pair_idempotence_cx :
    (runCycles ⟨[], [], 0⟩
      [⟨2000000000, "c", fun _ => true, true, [oldStrongItem]⟩]).2.1 =
      [oldStrongItem] ∧
    (runCycles ⟨[], [], 0⟩
      [⟨2000000000, "c", fun _ => true, true, [oldStrongItem]⟩]).2.2 = [] := by
  have hfresh : ¬ minutes_ago 2000000000 oldStrongItem.ts > 90 := by
    rw [minutes_ago_gt_iff]; decide
  have hing : ingestAll 2000000000 [] [oldStrongItem] =
      ([make_hash oldStrongItem.title (some oldStrongItem.url)],
        [oldStrongItem]) := by
    have := @ingestAll_first 2000000000 [] oldStrongItem [] hfresh (by simp)
      (by decide) (fun x hx => absurd hx (List.not_mem_nil x))
    simpa using this
  rw [runCycles_cons]
  constructor
  · rw [runCycle_alerts_def]
    simp only [hing]
    rw [show runCycles _ [] = (_, [], []) from rfl]
    simp only [List.append_nil]
    decide
  · rw [runCycle_added_def]
    simp only [hing]
    rw [show runCycles _ [] = (_, [], []) from rfl]
    simp only [List.append_nil]
    decide

def itemFeedA : Item := ⟨100, "iA", "news", "삼성전자", "무상증자", "u"⟩

def itemFeedB : Item := ⟨90, "iB", "dart", "다른종목", "무상증자", "u"⟩

def itemFeedC : Item := ⟨95, "iC", "news", "셋째", "무상증자", "u"⟩

/-- C1 witness: the same (title, url) pair fed twice in one cycle from two
different sources/entities and once more in the next cycle yields exactly
one alert attempt, one digest-buffer entry, and one new fingerprint. -/
theorem single_pair_idempotence_witness :
    (runCycles ⟨[], [], 0⟩
        [⟨200, "c", fun _ => true, true, [itemFeedA, itemFeedB]⟩,
          ⟨320, "c", fun _ => true, true, [itemFeedC]⟩]).1.seen_hashes =
      [make_hash "무상증자" (some "u")] ∧
    (runCycles ⟨[], [], 0⟩
        [⟨200, "c", fun _ => true, true, [itemFeedA, itemFeedB]⟩,
          ⟨320, "c", fun _ => true, true, [itemFeedC]⟩]).2.1 = [itemFeedA] ∧
    (runCycles ⟨[], [], 0⟩
        [⟨200, "c", fun _ => true, true, [itemFeedA, itemFeedB]⟩,
          ⟨320, "c", fun _ => true, true, [itemFeedC]⟩]).2.2 =
      [mkBufEntry itemFeedA] := by
  obtain ⟨h1, h2, h3⟩ := single_pair_idempotence ⟨[], [], 0⟩ itemFeedA
    [itemFeedB] ⟨200, "c", fun _ => true, true, [itemFeedA, itemFeedB]⟩
    [⟨320, "c", fun _ => true, true, [itemFeedC]⟩]
    rfl (by simp) (by decide) (by decide)
    (by intro x hx; rcases List.mem_singleton.mp hx with rfl; rfl)
    (by
      intro cin hcin x hx
      rcases List.mem_singleton.mp hcin with rfl
      rcases List.mem_singleton.mp hx with rfl
      rfl)
  refine ⟨by simpa using h1, ?_, ?_⟩
  · rw [h2, if_pos (by decide)]
  · rw [h3, if_pos (by decide)]

/-! ## C9: fingerprints are recorded before alert delivery is attempted -/

theorem ingest_invariants {nowT : Int} :
    ∀ (items : List Item) (seen : List String) (newly : List Item),
      seen.length + items.length ≤ 8000 →
      (∀ s ∈ seen, s ∈ (items.foldl (ingestOne nowT) (seen, newly)).1) ∧
      (∀ x ∈ (items.foldl (ingestOne nowT) (seen, newly)).2,
        x ∈ newly ∨ make_hash x.title (some x.url) ∉ seen) ∧
      ((∀ y ∈ newly, make_hash y.title (some y.url) ∈ seen) →
        ∀ x ∈ (items.foldl (ingestOne nowT) (seen, newly)).2,
          make_hash x.title (some x.url) ∈
            (items.foldl (ingestOne nowT) (seen, newly)).1) := by
  intro items
  induction items with
  | nil =>
    intro seen newly _
    exact ⟨fun s hs => hs, fun x hx => Or.inl hx, fun hy x hx => hy x hx⟩
  | cons it rest ih =>
    intro seen newly hbound
    rw [List.foldl_cons]
    simp only [List.length_cons] at hbound
    by_cases hst : minutes_ago nowT it.ts > 90
    · rw [show ingestOne nowT (seen, newly) it = (seen, newly) from by
        unfold ingestOne; rw [if_pos hst]]
      exact ih seen newly (by omega)
    · by_cases hmem : make_hash it.title (some it.url) ∈ seen
      · rw [show ingestOne nowT (seen, newly) it = (seen, newly) from by
          unfold ingestOne; rw [if_neg hst, if_pos hmem]]
        exact ih seen newly (by omega)
      · rw [show ingestOne nowT (seen, newly) it =
            (seen ++ [make_hash it.title (some it.url)], newly ++ [it]) from by
          unfold ingestOne
          rw [if_neg hst, if_neg hmem, keepLast_of_le (by simp; omega)]]
        obtain ⟨ihA, ihB, ihC⟩ :=
          ih (seen ++ [make_hash it.title (some it.url)]) (newly ++ [it])
            (by simp; omega)
        refine ⟨?_, ?_, ?_⟩
        · intro s hs
          exact ihA s (List.mem_append_left _ hs)
        · intro x hx
          rcases ihB x hx with hx' | hx'
          · rcases List.mem_append.mp hx' with hx'' | hx''
            · exact Or.inl hx''
            · rcases List.mem_singleton.mp hx'' with rfl
              exact Or.inr hmem
          · exact Or.inr fun hc => hx' (List.mem_append_left _ hc)
        · intro hy x hx
          refine ihC ?_ x hx
          intro y hyy
          rcases List.mem_append.mp hyy with hy' | hy'
          · exact List.mem_append_left _ (hy y hy')
          · rcases List.mem_singleton.mp hy' with rfl
            simp

/-- C9: within a cycle the state (including the recorded fingerprints) and
the list of attempted alerts are independent of every delivery outcome; each
alerted item's fingerprint is in the post-cycle store (it was recorded in
the ingest stage, before the alert pass, and delivery failure cannot remove
it); and in any cycle whose starting store already contains the pair's
fingerprint (as it does in every later cycle while the fingerprint has not
been evicted), an item with that fingerprint is never alerted again — so a
failed immediate alert is permanently lost (at-most-once delivery). -/
theorem record_before_alert :
    ∀ (st : BotState) (items : List Item) (nowT : Int) (cutoffIso : String)
      (aOk aOk' : Item → Bool) (dOk dOk' : Bool),
      ((runCycle st items nowT cutoffIso aOk dOk).state =
          (runCycle st items nowT cutoffIso aOk' dOk').state ∧
        (runCycle st items nowT cutoffIso aOk dOk).alerts =
          (runCycle st items nowT cutoffIso aOk' dOk').alerts) ∧
      (st.seen_hashes.length + items.length ≤ 8000 →
        (∀ it ∈ (runCycle st items nowT cutoffIso aOk dOk).alerts,
          make_hash it.title (some it.url) ∈
            (runCycle st items nowT cutoffIso aOk dOk).state.seen_hashes) ∧
        (∀ it : Item, make_hash it.title (some it.url) ∈ st.seen_hashes →
          it ∉ (runCycle st items nowT cutoffIso aOk dOk).alerts)) := by
  intro st items nowT cutoffIso aOk aOk' dOk dOk'
  refine ⟨⟨rfl, rfl⟩, fun hbound => ⟨?_, ?_⟩⟩
  · intro it hit
    obtain ⟨_, _, ihC⟩ := ingest_invariants items st.seen_hashes [] hbound
    rw [runCycle_alerts_def] at hit
    rw [runCycle_seen]
    exact ihC (fun y hy => absurd hy (List.not_mem_nil y)) it
      (List.mem_filter.mp hit).1
  · intro it hmem hit
    obtain ⟨_, ihB, _⟩ := ingest_invariants items st.seen_hashes [] hbound
    rw [runCycle_alerts_def] at hit
    rcases ihB it (List.mem_filter.mp hit).1 with h | h
    · exact List.not_mem_nil it h
    · exact h hmem

def itemRetry : Item := ⟨0, "i", "news", "종목", "제목", "url"⟩

/-- C9 witness: with the pair's fingerprint already in the store, re-feeding
the item produces no alert attempt, with delivery outcomes varied. -/
theorem record_before_alert_witness :
    (⟨[make_hash "제목" (some "url")], [], 0⟩ : BotState).seen_hashes.length +
        [itemRetry].length ≤ 8000 ∧
    make_hash itemRetry.title (some itemRetry.url) ∈
      (⟨[make_hash "제목" (some "url")], [], 0⟩ : BotState).seen_hashes ∧
    itemRetry ∉ (runCycle ⟨[make_hash "제목" (some "url")], [], 0⟩ [itemRetry]
      100 "" (fun _ => false) false).alerts := by
  have hb : (⟨[make_hash "제목" (some "url")], [], 0⟩ :
      BotState).seen_hashes.length + [itemRetry].length ≤ 8000 := by
    simp
  have hm : make_hash itemRetry.title (some itemRetry.url) ∈
      (⟨[make_hash "제목" (some "url")], [], 0⟩ : BotState).seen_hashes :=
    List.mem_singleton.mpr rfl
  exact ⟨hb, hm,
    ((record_before_alert ⟨[make_hash "제목" (some "url")], [], 0⟩ [itemRetry]
      100 "" (fun _ => false) (fun _ => false) false false).2 hb).2 itemRetry hm⟩

/-! ## C10: lexicographic pruning of ISO-8601 strings -/

theorem lexLt_self : ∀ l : List Char, lexLt l l = false := by
  intro l
  induction l with
  | nil => rfl
  | cons c r ih => simp [lexLt, lt_irrefl, ih]

theorem lexLt_cons_iff (a b : Char) (as bs : List Char) :
    lexLt (a :: as) (b :: bs) = true ↔ (a < b ∨ (a = b ∧ lexLt as bs = true)) := by
  by_cases h1 : a < b
  · simp [lexLt, h1]
  · by_cases h2 : b < a
    · have hne : a ≠ b := fun he => absurd h2 (by rw [he]; exact lt_irrefl b)
      simp [lexLt, h1, h2, hne]
    · have heq : a = b := le_antisymm (not_lt.mp h2) (not_lt.mp h1)
      simp [lexLt, h1, h2, heq]

theorem lexLt_cons_same (c : Char) (r₁ r₂ : List Char) :
    lexLt (c :: r₁) (c :: r₂) = lexLt r₁ r₂ := by
  simp [lexLt, lt_irrefl]

theorem lexLt_append_iff : ∀ (l₁ l₂ r₁ r₂ : List Char), l₁.length = l₂.length →
    (lexLt (l₁ ++ r₁) (l₂ ++ r₂) = true ↔
      lexLt l₁ l₂ = true ∨ (l₁ = l₂ ∧ lexLt r₁ r₂ = true)) := by
  intro l₁
  induction l₁ with
  | nil =>
    intro l₂ r₁ r₂ hlen
    cases l₂ with
    | nil => simp [lexLt]
    | cons b bs => simp at hlen
  | cons a as ih =>
    intro l₂ r₁ r₂ hlen
    cases l₂ with
    | nil => simp at hlen
    | cons b bs =>
      simp only [List.length_cons] at hlen
      simp only [List.cons_append]
      rw [lexLt_cons_iff, lexLt_cons_iff, ih bs r₁ r₂ (by omega)]
      constructor
      · rintro (h | ⟨rfl, h | ⟨rfl, h⟩⟩)
        · exact Or.inl (Or.inl h)
        · exact Or.inl (Or.inr ⟨rfl, h⟩)
        · exact Or.inr ⟨rfl, h⟩
      · rintro ((h | ⟨rfl, h⟩) | ⟨heq, h⟩)
        · exact Or.inl h
        · exact Or.inr ⟨rfl, Or.inl h⟩
        · cases heq
          exact Or.inr ⟨rfl, Or.inr ⟨rfl, h⟩⟩

theorem padNum_length (w : Nat) : ∀ n : Nat, (padNum w n).length = w := by
  induction w with
  | zero => intro n; rfl
  | succ w ih => intro n; simp [padNum, ih]

theorem digitChar_lt_iff :
    ∀ a : Nat, a < 10 → ∀ b : Nat, b < 10 →
      (Nat.digitChar a < Nat.digitChar b ↔ a < b) := by decide

theorem digitChar_eq_iff :
    ∀ a : Nat, a < 10 → ∀ b : Nat, b < 10 →
      (Nat.digitChar a = Nat.digitChar b ↔ a = b) := by decide

theorem nat_lt_iff_div_lt (d m n : Nat) (_hd : 0 < d) :
    m < n ↔ (m / d < n / d ∨ (m / d = n / d ∧ m % d < n % d)) := by
  have hm := Nat.div_add_mod m d
  have hn := Nat.div_add_mod n d
  constructor
  · intro h
    by_cases h1 : m / d = n / d
    · refine Or.inr ⟨h1, ?_⟩
      rw [h1] at hm
      set q := d * (n / d) with hq
      omega
    · exact Or.inl (lt_of_le_of_ne (Nat.div_le_div_right (Nat.le_of_lt h)) h1)
  · rintro (h | ⟨h1, h2⟩)
    · exact Nat.lt_of_div_lt_div h
    · rw [h1] at hm
      set q := d * (n / d) with hq
      omega

theorem padNum_iff (w : Nat) : ∀ m n : Nat, m < 10 ^ w → n < 10 ^ w →
    ((lexLt (padNum w m) (padNum w n) = true ↔ m < n) ∧
      (padNum w m = padNum w n ↔ m = n)) := by
  induction w with
  | zero =>
    intro m n hm hn
    simp only [pow_zero, Nat.lt_one_iff] at hm hn
    subst hm; subst hn
    simp [padNum, lexLt]
  | succ w ih =>
    intro m n hm hn
    have hpow : 0 < (10 : Nat) ^ w := pow_pos (by norm_num) w
    rw [pow_succ] at hm hn
    have hdm : m / 10 ^ w < 10 := Nat.div_lt_of_lt_mul hm
    have hdn : n / 10 ^ w < 10 := Nat.div_lt_of_lt_mul hn
    have hmodm : m % 10 ^ w < 10 ^ w := Nat.mod_lt _ hpow
    have hmodn : n % 10 ^ w < 10 ^ w := Nat.mod_lt _ hpow
    obtain ⟨ih1, ih2⟩ := ih (m % 10 ^ w) (n % 10 ^ w) hmodm hmodn
    have hem : padNum (w + 1) m =
        Nat.digitChar (m / 10 ^ w) :: padNum w (m % 10 ^ w) := rfl
    have hen : padNum (w + 1) n =
        Nat.digitChar (n / 10 ^ w) :: padNum w (n % 10 ^ w) := rfl
    constructor
    · rw [hem, hen, lexLt_cons_iff, digitChar_lt_iff _ hdm _ hdn,
        digitChar_eq_iff _ hdm _ hdn, ih1]
      exact (nat_lt_iff_div_lt (10 ^ w) m n hpow).symm
    · constructor
      · intro he
        rw [hem, hen] at he
        injection he with hd ht
        have hdd := (digitChar_eq_iff _ hdm _ hdn).mp hd
        have htt := ih2.mp ht
        have hm' := Nat.div_add_mod m (10 ^ w)
        have hn' := Nat.div_add_mod n (10 ^ w)
        rw [hdd, htt] at hm'
        set q := 10 ^ w * (n / 10 ^ w) with hq
        omega
      · rintro rfl; rfl

theorem padBlock_iff (w x y : Nat) (hx : x < 10 ^ w) (hy : y < 10 ^ w)
    (r₁ r₂ : List Char) :
    lexLt (padNum w x ++ r₁) (padNum w y ++ r₂) = true ↔
      (x < y ∨ (x = y ∧ lexLt r₁ r₂ = true)) := by
  rw [lexLt_append_iff _ _ _ _ (by rw [padNum_length, padNum_length])]
  rw [(padNum_iff w x y hx hy).1, (padNum_iff w x y hx hy).2]

theorem isoList_lt_iff (a b : DT) (ha : a.Valid) (hb : b.Valid) :
    (lexLt (isoList a) (isoList b) = true) ↔ a.chronoKey < b.chronoKey := by
  obtain ⟨ha1, ha2, ha3, ha4, ha5, ha6, ha7, ha8⟩ := ha
  obtain ⟨hb1, hb2, hb3, hb4, hb5, hb6, hb7, hb8⟩ := hb
  have p4 : (10 : Nat) ^ 4 = 10000 := by norm_num
  have p2 : (10 : Nat) ^ 2 = 100 := by norm_num
  unfold isoList
  rw [padBlock_iff 4 _ _ (by rw [p4]; exact ha1) (by rw [p4]; exact hb1),
    lexLt_cons_same,
    padBlock_iff 2 _ _ (by rw [p2]; omega) (by rw [p2]; omega),
    lexLt_cons_same,
    padBlock_iff 2 _ _ (by rw [p2]; omega) (by rw [p2]; omega),
    lexLt_cons_same,
    padBlock_iff 2 _ _ (by rw [p2]; omega) (by rw [p2]; omega),
    lexLt_cons_same,
    padBlock_iff 2 _ _ (by rw [p2]; omega) (by rw [p2]; omega),
    lexLt_cons_same,
    padBlock_iff 2 _ _ (by rw [p2]; omega) (by rw [p2]; omega),
    lexLt_self]
  unfold DT.chronoKey
  simp only [Bool.false_eq_true, and_false, or_false]
  omega

theorem isoList_length (d : DT) : (isoList d).length = 25 := by
  simp [isoList, padNum_length]

theorem iso_ne_empty (d : DT) : (DT.iso d == "") = false := by
  refine beq_eq_false_iff_ne.mpr fun he => ?_
  have h1 : (DT.iso d).data.length = 25 := isoList_length d
  rw [he] at h1
  simp at h1

/-- C10: the buffer prune of line 290 compares ISO strings
lexicographically; for timestamps the engine itself renders (zero-padded
`YYYY-MM-DDTHH:MM:SS+09:00` in the single fixed zone) this lexicographic
order coincides with chronological order, so the string-based prune equals
a timestamp-based prune. -/
theorem digest_prune_refinement :
    (∀ a b : DT, a.Valid → b.Valid →
      (pyStrLt (DT.iso a) (DT.iso b) = true ↔ a.chronoKey < b.chronoKey)) ∧
    (∀ (buf : List (DT × BufEntry)) (cutoff : DT), cutoff.Valid →
      (∀ p ∈ buf, p.1.Valid ∧ p.2.ts = DT.iso p.1) →
      pruneBuffer (DT.iso cutoff) (buf.map Prod.snd) =
        (buf.filter (fun p => decide (cutoff.chronoKey ≤ p.1.chronoKey))).map
          Prod.snd) := by
  have hmain : ∀ a b : DT, a.Valid → b.Valid →
      (pyStrLt (DT.iso a) (DT.iso b) = true ↔ a.chronoKey < b.chronoKey) := by
    intro a b ha hb
    exact isoList_lt_iff a b ha hb
  refine ⟨hmain, ?_⟩
  intro buf cutoff hcut
  induction buf with
  | nil => intro _; rfl
  | cons p rest ih =>
    intro hbuf
    obtain ⟨hv, hts⟩ := hbuf p (List.mem_cons_self p rest)
    have ih' := ih (fun q hq => hbuf q (List.mem_cons_of_mem p hq))
    have hkeep : (!(p.2.ts == "") && pyStrGe p.2.ts (DT.iso cutoff)) =
        decide (cutoff.chronoKey ≤ p.1.chronoKey) := by
      rw [hts, iso_ne_empty]
      simp only [Bool.not_false, Bool.true_and]
      have hiff := hmain p.1 cutoff hv hcut
      unfold pyStrGe
      cases hq : pyStrLt (DT.iso p.1) (DT.iso cutoff) with
      | true =>
        have hlt := hiff.mp hq
        rw [Bool.not_true, decide_eq_false (not_le.mpr hlt)]
      | false =>
        have hnlt : ¬ p.1.chronoKey < cutoff.chronoKey := by
          intro hc
          have h2 : pyStrLt (DT.iso p.1) (DT.iso cutoff) = true := hiff.mpr hc
          rw [h2] at hq
          exact Bool.noConfusion hq
        rw [Bool.not_false, decide_eq_true (not_lt.mp hnlt)]
    unfold pruneBuffer at ih' ⊢
    simp only [List.map_cons, List.filter_cons, hkeep]
    split
    · simp only [List.map_cons]
      exact congrArg (List.cons p.2) ih'
    · exact ih'

def dtEarly : DT := ⟨2025, 10, 12, 9, 0, 0⟩

def dtLate : DT := ⟨2025, 10, 12, 10, 30, 0⟩

/-- C10 witness: two concrete valid timestamps an hour and a half apart,
rendered and compared as the engine does. -/
theorem digest_prune_refinement_witness :
    DT.Valid dtEarly ∧ DT.Valid dtLate ∧
    pyStrLt (DT.iso dtEarly) (DT.iso dtLate) = true := by
  have h1 : DT.Valid dtEarly := by decide
  have h2 : DT.Valid dtLate := by decide
  exact ⟨h1, h2, (digest_prune_refinement.1 dtEarly dtLate h1 h2).mpr (by decide)⟩

end StockAlertBot
